import Mathlib

/-!
Shallow embedding of the in-memory TF-IDF retrieval engine of
src/chatbot/retrieval.py, together with proofs of its specification claims.

Modelling conventions:
* Python floats are modelled as real numbers.
* Python dicts mapping terms to weights are modelled as association lists
  with first-occurrence insertion order (the only observable dict facts the
  code uses are key lookup, value iteration, and size).
* Python's stable descending sort (list.sort with reverse=True) is modelled
  by insertion sort with the relation "has at least as large a score", which
  produces the same list: the unique score-sorted stable permutation.
* Python slicing scored[:top_k] (including negative top_k) is modelled by
  pySliceTo below.
-/

namespace Retrieval

/-- Character class of the first character of TOKEN_PATTERN, the regex
class A-Za-z0-9 (ASCII letters and digits). -/
def isStart (c : Char) : Bool := c.isAlphanum

/-- Character class of the continuation characters of TOKEN_PATTERN, the
regex class A-Za-z0-9 plus apostrophe and hyphen. -/
def isCont (c : Char) : Bool := c.isAlphanum || c == '\'' || c == '-'

/-- Lowercase a matched run, modelling match.group(0).lower(): the
character-wise lowering that str.lower performs on the matched ASCII run. -/
def lowerRun (run : List Char) : String := String.mk (run.map Char.toLower)

/-- Left-to-right maximal-munch scanner equivalent to
TOKEN_PATTERN.finditer: the accumulator holds the current (reversed)
in-progress run.  A run starts at an isStart character and extends over
isCont characters; every other character is a separator.  Note that a
character that ends a run is never an isStart character (isStart implies
isCont), so consuming it as a separator is faithful to the regex scan. -/
def tokenizeGo : List Char → List Char → List String
  | [], acc => if acc.isEmpty then [] else [lowerRun acc.reverse]
  | c :: rest, acc =>
    if acc.isEmpty then
      (if isStart c then tokenizeGo rest [c] else tokenizeGo rest [])
    else
      (if isCont c then tokenizeGo rest (c :: acc)
       else lowerRun acc.reverse :: tokenizeGo rest [])

/-- tokenize(text): the lowercased maximal matches of TOKEN_PATTERN in order. -/
def tokenize (s : String) : List String := tokenizeGo s.data []

/-- DocumentChunk (chatbot/documents.py): the indexed record. -/
structure DocumentChunk where
  chunk_id : String
  source_name : String
  text : String
deriving DecidableEq

/-- SearchResult: one retrieval hit with its relevance score. -/
structure SearchResult where
  chunk : DocumentChunk
  score : ℝ

/-- Helper for pyDedup: fold that keeps the first occurrence of each
element, modelling Python dict/Counter insertion order. -/
def pyDedupGo : List String → List String → List String
  | acc, [] => acc
  | acc, x :: xs => if x ∈ acc then pyDedupGo acc xs else pyDedupGo (acc ++ [x]) xs

/-- The distinct elements of a list in first-occurrence order (the key
sequence of a Python Counter built from the list). -/
def pyDedup (l : List String) : List String := pyDedupGo [] l

/-- Counter(terms) as an association list: each distinct term with its
multiplicity, in first-occurrence order. -/
def termCounts (terms : List String) : List (String × ℕ) :=
  (pyDedup terms).map fun t => (t, terms.count t)

/-- d.get(t) on a term-to-weight dict modelled as an association list. -/
def getWeight (v : List (String × ℝ)) (t : String) : Option ℝ :=
  (v.find? fun p => p.1 == t).map Prod.snd

/-- d.get(t, default) on a term-to-weight dict. -/
def getD (v : List (String × ℝ)) (t : String) (d : ℝ) : ℝ := (getWeight v t).getD d

noncomputable section

/-- The smoothed IDF formula of InMemoryTfidfIndex._build:
log((num_docs + 1) / (doc_freq + 1)) + 1.0. -/
def idfVal (numDocs docFreq : ℕ) : ℝ :=
  Real.log (((numDocs : ℝ) + 1) / ((docFreq : ℝ) + 1)) + 1

/-- The tokenized_chunks list of _build. -/
def tokenizedChunks (chunks : List DocumentChunk) : List (List String) :=
  chunks.map fun c => tokenize c.text

/-- doc_frequencies[t]: the number of chunks whose term set contains t. -/
def docFreq (tok : List (List String)) (t : String) : ℕ :=
  tok.countP fun terms => decide (t ∈ terms)

/-- The key sequence of doc_frequencies: every term of every chunk, once. -/
def idfTerms (tok : List (List String)) : List String :=
  pyDedup (tok.map pyDedup).flatten

/-- The _idf dict built by _build over a nonempty chunk list. -/
def buildIdf (chunks : List DocumentChunk) : List (String × ℝ) :=
  (idfTerms (tokenizedChunks chunks)).map fun t =>
    (t, idfVal chunks.length (docFreq (tokenizedChunks chunks) t))

/-- max(term_counts.values()): the max_frequency of _vectorize_terms,
evaluated over the nonempty multiset of counts. -/
def maxFrequency (terms : List String) : ℕ :=
  ((termCounts terms).map Prod.snd).foldr max 0

/-- _vectorize_terms: maximum-normalized term frequency times IDF, with
terms lacking an IDF entry skipped. -/
def vectorizeTerms (idf : List (String × ℝ)) (terms : List String) : List (String × ℝ) :=
  if (termCounts terms).isEmpty then []
  else
    (termCounts terms).filterMap fun p =>
      (getWeight idf p.1).map fun idfWeight =>
        (p.1, ((p.2 : ℝ) / (maxFrequency terms : ℝ)) * idfWeight)

/-- The Euclidean norm math.sqrt(sum(w * w for w in vector.values())). -/
def vnorm (v : List (String × ℝ)) : ℝ :=
  Real.sqrt ((v.map fun p => p.2 * p.2).sum)

/-- The summation of _dot after the possible swap: iterate the first
dict's items and look each term up in the second. -/
def dotRaw (left right : List (String × ℝ)) : ℝ :=
  (left.map fun p => p.2 * getD right p.1 0).sum

/-- _dot: swaps so that the iterated dict is the smaller one. -/
def dot (left right : List (String × ℝ)) : ℝ :=
  if right.length < left.length then dotRaw right left else dotRaw left right

/-- The state of InMemoryTfidfIndex after __init__ has run _build. -/
structure InMemoryTfidfIndex where
  chunks : List DocumentChunk
  idf : List (String × ℝ)
  vectors : List (List (String × ℝ))
  norms : List ℝ

/-- __init__ plus _build: the early return on an empty chunk list leaves
the empty dict and lists in place. -/
def buildIndex (chunks : List DocumentChunk) : InMemoryTfidfIndex :=
  if chunks.isEmpty then ⟨chunks, [], [], []⟩
  else
    let idf := buildIdf chunks
    let vectors := (tokenizedChunks chunks).map (vectorizeTerms idf)
    ⟨chunks, idf, vectors, vectors.map vnorm⟩

/-- The query vector computed inside search. -/
def queryVector (idx : InMemoryTfidfIndex) (query : String) : List (String × ℝ) :=
  vectorizeTerms idx.idf (tokenize query)

/-- The scoring loop of search: for each chunk (with its aligned vector
and norm), skip zero-norm chunks, compute the cosine score, and keep it
when score >= min_score.  Indexing self._vectors[index] and
self._norms[index] over enumerate(self.chunks) is rendered as a zip of
the three index-aligned lists. -/
def scoredList (chunks : List DocumentChunk) (vectors : List (List (String × ℝ)))
    (norms : List ℝ) (qv : List (String × ℝ)) (qnorm minScore : ℝ) : List SearchResult :=
  (chunks.zip (vectors.zip norms)).filterMap fun x =>
    if x.2.2 = 0 then none
    else
      if minScore ≤ dot qv x.2.1 / (qnorm * x.2.2) then
        some ⟨x.1, dot qv x.2.1 / (qnorm * x.2.2)⟩
      else none

/-- scored.sort(key=lambda r: r.score, reverse=True): the stable
descending sort by score. -/
def sortByScoreDesc (l : List SearchResult) : List SearchResult :=
  l.insertionSort fun a b => b.score ≤ a.score

/-- Python list slicing l[:k] for an arbitrary integer k. -/
def pySliceTo (l : List SearchResult) (k : ℤ) : List SearchResult :=
  if 0 ≤ k then l.take k.toNat else l.take (l.length + k).toNat

/-- InMemoryTfidfIndex.search(query, top_k, min_score).  The local
variables query_terms, query_vector and query_norm of the source are
inlined. -/
def search (idx : InMemoryTfidfIndex) (query : String) (topK : ℤ) (minScore : ℝ) :
    List SearchResult :=
  if idx.chunks.isEmpty then []
  else if (tokenize query).isEmpty then []
  else if (vectorizeTerms idx.idf (tokenize query)).isEmpty then []
  else if vnorm (vectorizeTerms idx.idf (tokenize query)) = 0 then []
  else
    pySliceTo
      (sortByScoreDesc (scoredList idx.chunks idx.vectors idx.norms
        (vectorizeTerms idx.idf (tokenize query))
        (vnorm (vectorizeTerms idx.idf (tokenize query))) minScore)) topK

/-- str.strip(): drop whitespace from both ends. -/
def pyStrip (s : String) : String :=
  String.mk ((s.data.dropWhile Char.isWhitespace).reverse.dropWhile Char.isWhitespace).reverse

/-- The block rendered for one result in build_context.  The fmt argument
abstracts Python's fixed-point float formatting of the score
(the score=...:.3f field of the header). -/
def renderBlock (fmt : ℝ → String) (r : SearchResult) : String :=
  pyStrip ("[" ++ r.chunk.chunk_id ++ " | " ++ r.chunk.source_name ++ " | score=" ++
    fmt r.score ++ "]" ++ "\n" ++ r.chunk.text)

/-- sep.join(strings). -/
def pyJoin (sep : String) : List String → String
  | [] => ""
  | [b] => b
  | b :: bs => b ++ sep ++ pyJoin sep bs

/-- The accumulation loop of build_context: sections and total_chars are
the loop state; the loop breaks when sections is nonempty and the next
block's estimated length would push total_chars over max_chars. -/
def buildContextGo (fmt : ℝ → String) (maxChars : ℤ) :
    List SearchResult → List String → ℤ → List String
  | [], sections, _ => sections
  | r :: rs, sections, total =>
    if sections.isEmpty = false ∧
        maxChars < total + (((renderBlock fmt r).length : ℤ) + 2) then sections
    else
      buildContextGo fmt maxChars rs (sections ++ [renderBlock fmt r])
        (total + (((renderBlock fmt r).length : ℤ) + 2))

/-- build_context(results, max_chars). -/
def buildContext (fmt : ℝ → String) (results : List SearchResult) (maxChars : ℤ) : String :=
  pyJoin "\n\n" (buildContextGo fmt maxChars results [] 0)

/-- The estimated length charged to a sequence of blocks by build_context:
each block's length plus the 2-character separator allowance. -/
def estSum (bs : List String) : ℤ :=
  (bs.map fun b => (b.length : ℤ) + 2).sum

/-- Proof-side reformulation of the tail of the build_context loop once at
least one section is present: greedily take blocks while the running
total stays within budget. -/
def ctxTake (maxChars : ℤ) : List String → ℤ → List String
  | [], _ => []
  | b :: bs, total =>
    if maxChars < total + ((b.length : ℤ) + 2) then []
    else b :: ctxTake maxChars bs (total + ((b.length : ℤ) + 2))

end

/-! ### Association-list and dedup helper lemmas -/

theorem pyDedupGo_mem (xs : List String) :
    ∀ acc t, t ∈ pyDedupGo acc xs ↔ t ∈ acc ∨ t ∈ xs := by
  induction xs with
  | nil => intro acc t; simp [pyDedupGo]
  | cons x xs ih =>
    intro acc t
    by_cases hx : x ∈ acc
    · rw [pyDedupGo, if_pos hx, ih]
      constructor
      · rintro (h | h)
        · exact Or.inl h
        · exact Or.inr (List.mem_cons_of_mem _ h)
      · rintro (h | h)
        · exact Or.inl h
        · rcases List.mem_cons.mp h with h | h
          · exact Or.inl (h ▸ hx)
          · exact Or.inr h
    · rw [pyDedupGo, if_neg hx, ih]
      simp only [List.mem_append, List.mem_singleton, List.mem_cons]
      tauto

theorem pyDedupGo_nodup (xs : List String) :
    ∀ acc, acc.Nodup → (pyDedupGo acc xs).Nodup := by
  induction xs with
  | nil => intro acc h; exact h
  | cons x xs ih =>
    intro acc h
    by_cases hx : x ∈ acc
    · rw [pyDedupGo, if_pos hx]; exact ih acc h
    · rw [pyDedupGo, if_neg hx]
      refine ih _ (List.nodup_append.mpr ⟨h, List.nodup_singleton x, ?_⟩)
      intro a ha hax
      exact hx ((List.mem_singleton.mp hax) ▸ ha)

theorem pyDedup_mem (l : List String) (t : String) : t ∈ pyDedup l ↔ t ∈ l := by
  rw [pyDedup, pyDedupGo_mem]
  simp

theorem pyDedup_nodup (l : List String) : (pyDedup l).Nodup :=
  pyDedupGo_nodup l [] List.nodup_nil

theorem termCounts_mem (terms : List String) (p : String × ℕ) (h : p ∈ termCounts terms) :
    p.1 ∈ terms ∧ p.2 = terms.count p.1 := by
  rcases List.mem_map.mp h with ⟨t, ht, rfl⟩
  exact ⟨(pyDedup_mem terms t).mp ht, rfl⟩

theorem le_foldr_max (l : List ℕ) (a : ℕ) (h : a ∈ l) : a ≤ l.foldr max 0 := by
  induction l with
  | nil => cases h
  | cons b l ih =>
    rcases List.mem_cons.mp h with rfl | h
    · exact le_max_left _ _
    · exact le_trans (ih h) (le_max_right _ _)

theorem getWeight_map_of_mem (keys : List String) (f : String → ℝ) (t : String)
    (h : t ∈ keys) : getWeight (keys.map fun s => (s, f s)) t = some (f t) := by
  induction keys with
  | nil => cases h
  | cons k ks ih =>
    rw [List.map_cons, getWeight]
    by_cases hk : k = t
    · subst hk
      rw [List.find?_cons_of_pos _ (by simp)]
      rfl
    · rw [List.find?_cons_of_neg _ (by simpa using hk)]
      rcases List.mem_cons.mp h with rfl | h
      · exact absurd rfl hk
      · exact ih h

theorem getWeight_map_eq_some (keys : List String) (f : String → ℝ) (t : String) (w : ℝ)
    (h : getWeight (keys.map fun s => (s, f s)) t = some w) : t ∈ keys ∧ w = f t := by
  induction keys with
  | nil => simp [getWeight] at h
  | cons k ks ih =>
    by_cases hk : k = t
    · subst hk
      simp [getWeight, List.find?] at h
      exact ⟨List.mem_cons_self _ _, h.symm⟩
    · rw [List.map_cons, getWeight] at h
      rw [List.find?_cons_of_neg] at h
      · rcases ih h with ⟨h1, h2⟩
        exact ⟨List.mem_cons_of_mem _ h1, h2⟩
      · simpa using hk

theorem getWeight_not_mem (v : List (String × ℝ)) (t : String)
    (h : ¬ t ∈ v.map Prod.fst) : getWeight v t = none := by
  induction v with
  | nil => rfl
  | cons p v ih =>
    simp only [List.map_cons, List.mem_cons] at h
    push_neg at h
    rw [getWeight, List.find?_cons_of_neg]
    · exact ih h.2
    · simpa using fun hc => h.1 hc.symm

theorem getD_of_mem (v : List (String × ℝ)) (t : String) (w : ℝ)
    (hn : (v.map Prod.fst).Nodup) (h : (t, w) ∈ v) : getD v t 0 = w := by
  induction v with
  | nil => cases h
  | cons p v ih =>
    simp only [List.map_cons, List.nodup_cons] at hn
    rcases List.mem_cons.mp h with rfl | h
    · simp [getD, getWeight, List.find?]
    · have hp : p.1 ≠ t := by
        intro he
        exact hn.1 (he ▸ List.mem_map.mpr ⟨(t, w), h, rfl⟩)
      rw [getD, getWeight, List.find?_cons_of_neg]
      · exact ih hn.2 h
      · simpa using hp

theorem getD_not_mem (v : List (String × ℝ)) (t : String)
    (h : ¬ t ∈ v.map Prod.fst) : getD v t 0 = 0 := by
  rw [getD, getWeight_not_mem v t h]
  rfl

/-! ### Dot product: value and commutativity (claim C9) -/

/-- The dict property: keys are pairwise distinct. -/
def NodupKeys (v : List (String × ℝ)) : Prop := (v.map Prod.fst).Nodup

theorem dotRaw_eq_sum_keys (a b : List (String × ℝ)) (ha : NodupKeys a) :
    dotRaw a b = ∑ t ∈ (a.map Prod.fst).toFinset, getD a t 0 * getD b t 0 := by
  rw [List.sum_toFinset _ ha, List.map_map]
  unfold dotRaw
  congr 1
  refine List.map_congr_left fun p hp => ?_
  have hp2 : getD a p.1 0 = p.2 := getD_of_mem a p.1 p.2 ha (by simpa using hp)
  simp [Function.comp, hp2]

theorem dotRaw_sum_superset (a b : List (String × ℝ)) (s : Finset String)
    (hs : (a.map Prod.fst).toFinset ⊆ s) :
    ∑ t ∈ s, getD a t 0 * getD b t 0 =
      ∑ t ∈ (a.map Prod.fst).toFinset, getD a t 0 * getD b t 0 := by
  refine (Finset.sum_subset hs fun x _ hx => ?_).symm
  rw [getD_not_mem a x fun h => hx (List.mem_toFinset.mpr h), zero_mul]

theorem dotRaw_comm (a b : List (String × ℝ)) (ha : NodupKeys a) (hb : NodupKeys b) :
    dotRaw a b = dotRaw b a := by
  rw [dotRaw_eq_sum_keys a b ha, dotRaw_eq_sum_keys b a hb]
  rw [← dotRaw_sum_superset a b ((a.map Prod.fst).toFinset ∪ (b.map Prod.fst).toFinset)
        Finset.subset_union_left,
      ← dotRaw_sum_superset b a ((a.map Prod.fst).toFinset ∪ (b.map Prod.fst).toFinset)
        Finset.subset_union_right]
  exact Finset.sum_congr rfl fun t _ => mul_comm _ _

theorem dot_eq_dotRaw (a b : List (String × ℝ)) (ha : NodupKeys a) (hb : NodupKeys b) :
    dot a b = dotRaw a b := by
  unfold dot
  split
  · exact dotRaw_comm b a hb ha
  · rfl

theorem dot_comm (a b : List (String × ℝ)) (ha : NodupKeys a) (hb : NodupKeys b) :
    dot a b = dot b a := by
  rw [dot_eq_dotRaw a b ha hb, dot_eq_dotRaw b a hb ha, dotRaw_comm a b ha hb]

/-- Claim C9: for all finite term-to-weight mappings a and b, _dot(a, b)
equals the sum over every term of a of a's weight times b's weight for
that term (0 when absent from b), independently of which argument is
smaller, so _dot is commutative; in particular _dot on the mappings
alpha 1, beta 2, gamma 4 and beta 3, gamma 5 yields 26. -/
theorem c9_dot_value_commutative :
    (∀ a b : List (String × ℝ), NodupKeys a → NodupKeys b →
      dot a b = dotRaw a b ∧ dot a b = dot b a) ∧
    dot [("alpha", (1 : ℝ)), ("beta", 2), ("gamma", 4)]
        [("beta", (3 : ℝ)), ("gamma", 5)] = 26 := by
  refine ⟨fun a b ha hb => ⟨dot_eq_dotRaw a b ha hb, dot_comm a b ha hb⟩, ?_⟩
  rw [dot, if_pos (by norm_num)]
  have h1 : (("alpha" : String) == "beta") = false := by decide
  have h2 : (("beta" : String) == "beta") = true := by decide
  have h3 : (("alpha" : String) == "gamma") = false := by decide
  have h4 : (("beta" : String) == "gamma") = false := by decide
  have h5 : (("gamma" : String) == "gamma") = true := by decide
  simp only [dotRaw, getD, getWeight, List.find?, List.map_cons, List.map_nil, List.sum_cons,
    List.sum_nil, h1, h2, h3, h4, h5]
  norm_num

/-- Closed instance of claim C9's theorem at the concrete mappings of the
claim, with both key-distinctness hypotheses discharged. -/
theorem c9_witness :
    dot [("alpha", (1 : ℝ)), ("beta", 2), ("gamma", 4)] [("beta", (3 : ℝ)), ("gamma", 5)] =
      dotRaw [("alpha", (1 : ℝ)), ("beta", 2), ("gamma", 4)] [("beta", (3 : ℝ)), ("gamma", 5)] ∧
    dot [("alpha", (1 : ℝ)), ("beta", 2), ("gamma", 4)] [("beta", (3 : ℝ)), ("gamma", 5)] =
      dot [("beta", (3 : ℝ)), ("gamma", 5)] [("alpha", (1 : ℝ)), ("beta", 2), ("gamma", 4)] :=
  c9_dot_value_commutative.1 _ _ (by unfold NodupKeys; decide) (by unfold NodupKeys; decide)

/-! ### Index construction facts (claim C8) -/

theorem buildIndex_chunks (chunks : List DocumentChunk) :
    (buildIndex chunks).chunks = chunks := by
  unfold buildIndex
  split <;> rfl

theorem buildIndex_idf (chunks : List DocumentChunk) :
    (buildIndex chunks).idf = buildIdf chunks := by
  unfold buildIndex
  split
  · next h =>
    obtain rfl : chunks = [] := by simpa using h
    rfl
  · rfl

theorem buildIndex_vectors (chunks : List DocumentChunk) :
    (buildIndex chunks).vectors =
      chunks.map fun c => vectorizeTerms (buildIdf chunks) (tokenize c.text) := by
  unfold buildIndex
  split
  · next h =>
    obtain rfl : chunks = [] := by simpa using h
    rfl
  · show (tokenizedChunks chunks).map _ = _
    rw [tokenizedChunks, List.map_map]
    rfl

theorem buildIndex_norms (chunks : List DocumentChunk) :
    (buildIndex chunks).norms = (buildIndex chunks).vectors.map vnorm := by
  unfold buildIndex
  split <;> rfl

/-- Claim C8: after construction the vector and norm sequences have
exactly the chunk sequence's length and are index-aligned: the vector at
position i is the max-normalized-TF times IDF vector of chunk i's
tokenized text and the norm at position i is the Euclidean norm (vnorm,
the square root of the sum of squared weights) of the vector at
position i. -/
theorem c8_build_alignment (chunks : List DocumentChunk) :
    (buildIndex chunks).vectors.length = chunks.length ∧
    (buildIndex chunks).norms.length = chunks.length ∧
    (∀ i : ℕ, (buildIndex chunks).vectors[i]? =
      (chunks[i]?).map fun c => vectorizeTerms (buildIdf chunks) (tokenize c.text)) ∧
    (∀ i : ℕ, (buildIndex chunks).norms[i]? = ((buildIndex chunks).vectors[i]?).map vnorm) := by
  refine ⟨?_, ?_, fun i => ?_, fun i => ?_⟩
  · rw [buildIndex_vectors]; simp
  · rw [buildIndex_norms, buildIndex_vectors]; simp
  · rw [buildIndex_vectors]; simp
  · rw [buildIndex_norms]; simp

/-! ### IDF facts (claim C3) -/

theorem docFreq_le_length (tok : List (List String)) (t : String) :
    docFreq tok t ≤ tok.length :=
  List.countP_le_length _

theorem idfVal_pos (n df : ℕ) (h : df ≤ n) : 0 < idfVal n df := by
  unfold idfVal
  have hd : (0 : ℝ) < (df : ℝ) + 1 := by positivity
  have h1 : (1 : ℝ) ≤ ((n : ℝ) + 1) / ((df : ℝ) + 1) := by
    rw [le_div_iff₀ hd, one_mul]
    have : (df : ℝ) ≤ (n : ℝ) := Nat.cast_le.mpr h
    linarith
  have := Real.log_nonneg h1
  linarith

theorem idfVal_anti (n d1 d2 : ℕ) (h : d1 < d2) : idfVal n d2 < idfVal n d1 := by
  unfold idfVal
  have hd : ((n : ℝ) + 1) / ((d2 : ℝ) + 1) < ((n : ℝ) + 1) / ((d1 : ℝ) + 1) := by
    apply div_lt_div_of_pos_left (by positivity) (by positivity)
    have : (d1 : ℝ) < (d2 : ℝ) := Nat.cast_lt.mpr h
    linarith
  have := Real.log_lt_log (by positivity) hd
  linarith

theorem mem_idfTerms (tok : List (List String)) (t : String) :
    t ∈ idfTerms tok ↔ ∃ terms ∈ tok, t ∈ terms := by
  unfold idfTerms
  rw [pyDedup_mem]
  simp only [List.mem_flatten, List.mem_map]
  constructor
  · rintro ⟨l, ⟨terms, hterms, rfl⟩, hl⟩
    exact ⟨terms, hterms, (pyDedup_mem terms t).mp hl⟩
  · rintro ⟨terms, hterms, ht⟩
    exact ⟨pyDedup terms, ⟨terms, hterms, rfl⟩, (pyDedup_mem terms t).mpr ht⟩

theorem getWeight_buildIdf (chunks : List DocumentChunk) (t : String)
    (h : ∃ terms ∈ tokenizedChunks chunks, t ∈ terms) :
    getWeight (buildIdf chunks) t =
      some (idfVal chunks.length (docFreq (tokenizedChunks chunks) t)) := by
  unfold buildIdf
  exact getWeight_map_of_mem _ _ _ ((mem_idfTerms _ t).mpr h)

theorem getWeight_buildIdf_some (chunks : List DocumentChunk) (t : String) (w : ℝ)
    (h : getWeight (buildIdf chunks) t = some w) :
    w = idfVal chunks.length (docFreq (tokenizedChunks chunks) t) := by
  unfold buildIdf at h
  exact (getWeight_map_eq_some _ _ _ _ h).2

/-- Claim C3: at index construction over N chunks the IDF weight of a
term t appearing in at least one chunk is stored as
ln((N + 1) / (df + 1)) + 1.0 for its document frequency df; this weight
is strictly positive; and a term with strictly smaller document
frequency gets a strictly larger weight. -/
theorem c3_idf_formula (chunks : List DocumentChunk) (t u : String)
    (ht : ∃ terms ∈ tokenizedChunks chunks, t ∈ terms) :
    getWeight (buildIndex chunks).idf t =
      some (idfVal chunks.length (docFreq (tokenizedChunks chunks) t)) ∧
    idfVal chunks.length (docFreq (tokenizedChunks chunks) t) =
      Real.log (((chunks.length : ℝ) + 1) / ((docFreq (tokenizedChunks chunks) t : ℝ) + 1)) + 1 ∧
    0 < idfVal chunks.length (docFreq (tokenizedChunks chunks) t) ∧
    (docFreq (tokenizedChunks chunks) t < docFreq (tokenizedChunks chunks) u →
      idfVal chunks.length (docFreq (tokenizedChunks chunks) u) <
        idfVal chunks.length (docFreq (tokenizedChunks chunks) t)) := by
  refine ⟨?_, rfl, ?_, fun h => idfVal_anti _ _ _ h⟩
  · rw [buildIndex_idf]
    exact getWeight_buildIdf chunks t ht
  · apply idfVal_pos
    calc docFreq (tokenizedChunks chunks) t ≤ (tokenizedChunks chunks).length :=
          docFreq_le_length _ _
      _ = chunks.length := by simp [tokenizedChunks]

/-- Closed instance of claim C3's theorem over a concrete two-chunk
corpus, with the membership and document-frequency hypotheses discharged
by evaluation. -/
theorem c3_witness :
    getWeight (buildIndex [⟨"1", "d", "apple banana"⟩, ⟨"2", "d", "banana"⟩]).idf "apple" =
      some (idfVal 2 (docFreq
        (tokenizedChunks [⟨"1", "d", "apple banana"⟩, ⟨"2", "d", "banana"⟩]) "apple")) ∧
    0 < idfVal 2 (docFreq
        (tokenizedChunks [⟨"1", "d", "apple banana"⟩, ⟨"2", "d", "banana"⟩]) "apple") ∧
    idfVal 2 (docFreq
        (tokenizedChunks [⟨"1", "d", "apple banana"⟩, ⟨"2", "d", "banana"⟩]) "banana") <
      idfVal 2 (docFreq
        (tokenizedChunks [⟨"1", "d", "apple banana"⟩, ⟨"2", "d", "banana"⟩]) "apple") := by
  have h := c3_idf_formula [⟨"1", "d", "apple banana"⟩, ⟨"2", "d", "banana"⟩] "apple" "banana"
    (by decide)
  exact ⟨h.1, h.2.2.1, h.2.2.2 (by decide)⟩

/-! ### Positivity of stored weights and norms (claim C5) -/

theorem vectorizeTerms_buildIdf_pos (chunks : List DocumentChunk) (terms : List String) :
    ∀ p ∈ vectorizeTerms (buildIdf chunks) terms, 0 < p.2 := by
  intro p hp
  unfold vectorizeTerms at hp
  split at hp
  · cases hp
  · rcases List.mem_filterMap.mp hp with ⟨q, hq, hfq⟩
    cases hw : getWeight (buildIdf chunks) q.1 with
    | none => rw [hw] at hfq; cases hfq
    | some w =>
      rw [hw] at hfq
      simp only [Option.map_some'] at hfq
      obtain rfl := Option.some.inj hfq
      show 0 < ((q.2 : ℝ) / (maxFrequency terms : ℝ)) * w
      have hq1 := termCounts_mem terms q hq
      have hcount : 0 < q.2 := hq1.2 ▸ List.count_pos_iff.mpr hq1.1
      have hmax : q.2 ≤ maxFrequency terms :=
        le_foldr_max _ _ (List.mem_map.mpr ⟨q, hq, rfl⟩)
      have hw2 : w = idfVal chunks.length (docFreq (tokenizedChunks chunks) q.1) :=
        getWeight_buildIdf_some chunks q.1 w hw
      have hwpos : 0 < w := by
        rw [hw2]
        apply idfVal_pos
        calc docFreq (tokenizedChunks chunks) q.1 ≤ (tokenizedChunks chunks).length :=
              docFreq_le_length _ _
          _ = chunks.length := by simp [tokenizedChunks]
      have htf : (0 : ℝ) < (q.2 : ℝ) / (maxFrequency terms : ℝ) := by
        apply div_pos (by exact_mod_cast hcount)
        exact_mod_cast lt_of_lt_of_le hcount hmax
      exact mul_pos htf hwpos

theorem vnorm_nonneg (v : List (String × ℝ)) : 0 ≤ vnorm v := Real.sqrt_nonneg _

theorem vnorm_pos (v : List (String × ℝ)) (hne : v ≠ []) (hpos : ∀ p ∈ v, 0 < p.2) :
    0 < vnorm v := by
  unfold vnorm
  apply Real.sqrt_pos.mpr
  cases v with
  | nil => exact absurd rfl hne
  | cons p v =>
    simp only [List.map_cons, List.sum_cons]
    have h1 : 0 < p.2 * p.2 :=
      mul_pos (hpos p (List.mem_cons_self p v)) (hpos p (List.mem_cons_self p v))
    have h2 : 0 ≤ (v.map fun p => p.2 * p.2).sum := by
      apply List.sum_nonneg
      intro x hx
      rcases List.mem_map.mp hx with ⟨q, hq, rfl⟩
      have := hpos q (List.mem_cons_of_mem _ hq)
      positivity
    linarith

theorem scoredList_eq_filter (cs : List DocumentChunk) (vs : List (List (String × ℝ)))
    (ns : List ℝ) (qv : List (String × ℝ)) (qn ms : ℝ) :
    scoredList cs vs ns qv qn ms =
      ((cs.zip (vs.zip ns)).filter fun x => decide (x.2.2 ≠ 0)).filterMap fun x =>
        if ms ≤ dot qv x.2.1 / (qn * x.2.2) then
          some ⟨x.1, dot qv x.2.1 / (qn * x.2.2)⟩
        else none := by
  unfold scoredList
  rw [List.filterMap_filter]
  refine List.filterMap_congr fun x hx => ?_
  by_cases h : x.2.2 = 0
  · simp [h]
  · simp [h]

/-- Claim C5: no division by zero in search.  Every weight stored in a
vector built from the index's IDF table is strictly positive, so a
nonempty query vector has strictly positive norm (the zero-query-norm
early return is unreachable once the query vector is nonempty); the
scoring loop is exactly the cosine computation restricted to the chunks
with nonzero stored norm (zero-norm chunks are excluded entirely); and a
product of two nonzero norms, the denominator of the cosine quotient, is
nonzero. -/
theorem c5_no_division_by_zero (chunks : List DocumentChunk) (terms : List String) :
    (∀ p ∈ vectorizeTerms (buildIndex chunks).idf terms, 0 < p.2) ∧
    (vectorizeTerms (buildIndex chunks).idf terms ≠ [] →
      0 < vnorm (vectorizeTerms (buildIndex chunks).idf terms)) ∧
    (∀ (cs : List DocumentChunk) (vs : List (List (String × ℝ))) (ns : List ℝ)
        (qv : List (String × ℝ)) (qn ms : ℝ),
      scoredList cs vs ns qv qn ms =
        ((cs.zip (vs.zip ns)).filter fun x => decide (x.2.2 ≠ 0)).filterMap fun x =>
          if ms ≤ dot qv x.2.1 / (qn * x.2.2) then
            some ⟨x.1, dot qv x.2.1 / (qn * x.2.2)⟩
          else none) ∧
    (∀ qn n : ℝ, qn ≠ 0 → n ≠ 0 → qn * n ≠ 0) := by
  rw [buildIndex_idf]
  exact ⟨vectorizeTerms_buildIdf_pos chunks terms,
    fun h => vnorm_pos _ h (vectorizeTerms_buildIdf_pos chunks terms),
    scoredList_eq_filter, fun qn n h1 h2 => mul_ne_zero h1 h2⟩

theorem qv_apple_ne_nil :
    vectorizeTerms (buildIndex [⟨"1", "d", "apple"⟩]).idf ["apple"] ≠ [] := by
  rw [buildIndex_idf]
  have hg : getWeight (buildIdf [⟨"1", "d", "apple"⟩]) "apple" =
      some (idfVal 1 (docFreq (tokenizedChunks [⟨"1", "d", "apple"⟩]) "apple")) :=
    getWeight_buildIdf _ _ (by decide)
  unfold vectorizeTerms
  rw [show termCounts ["apple"] = [("apple", 1)] from by decide]
  simp [hg]

/-- Closed instance of claim C5's theorem: the query vector over a
one-chunk corpus is nonempty, so its norm is strictly positive. -/
theorem c5_witness :
    0 < vnorm (vectorizeTerms (buildIndex [⟨"1", "d", "apple"⟩]).idf ["apple"]) :=
  (c5_no_division_by_zero [⟨"1", "d", "apple"⟩] ["apple"]).2.1 qv_apple_ne_nil

/-! ### Sorting and search contract (claim C1) -/

theorem sortByScoreDesc_sorted (l : List SearchResult) :
    (sortByScoreDesc l).Sorted fun a b => b.score ≤ a.score := by
  haveI : IsTotal SearchResult fun a b => b.score ≤ a.score :=
    ⟨fun a b => le_total b.score a.score⟩
  haveI : IsTrans SearchResult fun a b => b.score ≤ a.score :=
    ⟨fun a b c h1 h2 => le_trans h2 h1⟩
  exact List.sorted_insertionSort _ _

theorem sortByScoreDesc_perm (l : List SearchResult) : (sortByScoreDesc l).Perm l :=
  List.perm_insertionSort _ _

theorem scoredList_score_ge (cs : List DocumentChunk) (vs : List (List (String × ℝ)))
    (ns : List ℝ) (qv : List (String × ℝ)) (qn ms : ℝ) :
    ∀ r ∈ scoredList cs vs ns qv qn ms, ms ≤ r.score := by
  intro r hr
  unfold scoredList at hr
  rcases List.mem_filterMap.mp hr with ⟨x, hx, hfx⟩
  split_ifs at hfx with h1 h2
  obtain rfl := Option.some.inj hfx
  exact h2

theorem take_topk_contract (L : List SearchResult) (topK : ℤ) (h : 0 ≤ topK) (ms : ℝ)
    (hs : L.Sorted fun a b => b.score ≤ a.score)
    (hm : ∀ r ∈ L, ms ≤ r.score) :
    ((L.take topK.toNat).length : ℤ) ≤ topK ∧
    (L.take topK.toNat).Sorted (fun a b => b.score ≤ a.score) ∧
    ∀ r ∈ L.take topK.toNat, ms ≤ r.score := by
  refine ⟨?_, ?_, ?_⟩
  · have h1 : (L.take topK.toNat).length ≤ topK.toNat := by
      simp [List.length_take]
    calc ((L.take topK.toNat).length : ℤ) ≤ (topK.toNat : ℤ) := by exact_mod_cast h1
      _ = topK := Int.toNat_of_nonneg h
  · exact List.Pairwise.sublist (List.take_sublist _ _) hs
  · intro r hr
    exact hm r (List.mem_of_mem_take hr)

/-- Claim C1: for every index, query, top_k at least 0 and min_score,
search returns at most top_k results, in non-increasing score order, all
with score at least min_score. -/
theorem c1_search_contract (idx : InMemoryTfidfIndex) (query : String) (topK : ℤ)
    (minScore : ℝ) (h : 0 ≤ topK) :
    ((search idx query topK minScore).length : ℤ) ≤ topK ∧
    (search idx query topK minScore).Sorted (fun a b => b.score ≤ a.score) ∧
    ∀ r ∈ search idx query topK minScore, minScore ≤ r.score := by
  unfold search
  split
  · exact ⟨by simpa using h, List.sorted_nil, by simp⟩
  split
  · exact ⟨by simpa using h, List.sorted_nil, by simp⟩
  split
  · exact ⟨by simpa using h, List.sorted_nil, by simp⟩
  split
  · exact ⟨by simpa using h, List.sorted_nil, by simp⟩
  unfold pySliceTo
  rw [if_pos h]
  exact take_topk_contract _ topK h minScore (sortByScoreDesc_sorted _)
    (fun r hr => scoredList_score_ge _ _ _ _ _ _ r ((sortByScoreDesc_perm _).subset hr))

/-- Closed instance of claim C1's theorem at a concrete call, with the
nonnegativity hypothesis on top_k discharged. -/
theorem c1_witness :
    ((search (buildIndex []) "apple" 5 (5 / 100)).length : ℤ) ≤ 5 ∧
    (search (buildIndex []) "apple" 5 (5 / 100)).Sorted (fun a b => b.score ≤ a.score) :=
  ⟨(c1_search_contract (buildIndex []) "apple" 5 (5 / 100) (by norm_num)).1,
   (c1_search_contract (buildIndex []) "apple" 5 (5 / 100) (by norm_num)).2.1⟩

/-! ### Degenerate inputs return empty results (claim C6) -/

theorem vectorizeTerms_unknown (idf : List (String × ℝ)) (terms : List String)
    (h : ∀ t ∈ terms, getWeight idf t = none) : vectorizeTerms idf terms = [] := by
  unfold vectorizeTerms
  split
  · rfl
  · apply List.filterMap_eq_nil_iff.mpr
    intro p hp
    rw [h p.1 (termCounts_mem terms p hp).1]
    rfl

theorem scoredList_all_zero (cs : List DocumentChunk) (vs : List (List (String × ℝ)))
    (ns : List ℝ) (qv : List (String × ℝ)) (qn ms : ℝ) (h : ∀ n ∈ ns, n = 0) :
    scoredList cs vs ns qv qn ms = [] := by
  unfold scoredList
  apply List.filterMap_eq_nil_iff.mpr
  intro x hx
  have hn : x.2.2 ∈ ns := ((List.of_mem_zip ((List.of_mem_zip hx).2 : x.2 ∈ vs.zip ns)).2 :)
  rw [if_pos (h _ hn)]

theorem scoredList_below (cs : List DocumentChunk) (vs : List (List (String × ℝ)))
    (ns : List ℝ) (qv : List (String × ℝ)) (qn ms : ℝ)
    (h : ∀ x ∈ cs.zip (vs.zip ns), dot qv x.2.1 / (qn * x.2.2) < ms) :
    scoredList cs vs ns qv qn ms = [] := by
  unfold scoredList
  apply List.filterMap_eq_nil_iff.mpr
  intro x hx
  by_cases hz : x.2.2 = 0
  · rw [if_pos hz]
  · rw [if_neg hz, if_neg (not_le.mpr (h x hx))]

/-- Claim C6: search never fails on degenerate input shapes and instead
returns the empty result list: an empty chunk set; a query with no
tokens; a query all of whose tokens are unknown to the corpus IDF table;
a corpus in which every stored norm is zero; and a min_score strictly
above every attainable cosine score. -/
theorem c6_search_degrades (chunks : List DocumentChunk) (query : String) (topK : ℤ)
    (minScore : ℝ) :
    (search (buildIndex []) query topK minScore = []) ∧
    (tokenize query = [] → search (buildIndex chunks) query topK minScore = []) ∧
    ((∀ t ∈ tokenize query, getWeight (buildIndex chunks).idf t = none) →
      search (buildIndex chunks) query topK minScore = []) ∧
    ((∀ n ∈ (buildIndex chunks).norms, n = 0) →
      search (buildIndex chunks) query topK minScore = []) ∧
    ((∀ x ∈ chunks.zip ((buildIndex chunks).vectors.zip (buildIndex chunks).norms),
        dot (vectorizeTerms (buildIndex chunks).idf (tokenize query)) x.2.1 /
          (vnorm (vectorizeTerms (buildIndex chunks).idf (tokenize query)) * x.2.2) < minScore) →
      search (buildIndex chunks) query topK minScore = []) := by
  refine ⟨rfl, fun h => ?_, fun h => ?_, fun h => ?_, fun h => ?_⟩
  · unfold search
    rw [h]
    simp
  · have hqv := vectorizeTerms_unknown (buildIndex chunks).idf (tokenize query) h
    unfold search
    rw [hqv]
    simp
  · unfold search
    rw [scoredList_all_zero (buildIndex chunks).chunks (buildIndex chunks).vectors
      (buildIndex chunks).norms (vectorizeTerms (buildIndex chunks).idf (tokenize query))
      (vnorm (vectorizeTerms (buildIndex chunks).idf (tokenize query))) minScore h]
    simp [sortByScoreDesc, pySliceTo]
  · have h2 : ∀ x ∈ (buildIndex chunks).chunks.zip
        ((buildIndex chunks).vectors.zip (buildIndex chunks).norms),
        dot (vectorizeTerms (buildIndex chunks).idf (tokenize query)) x.2.1 /
          (vnorm (vectorizeTerms (buildIndex chunks).idf (tokenize query)) * x.2.2) < minScore := by
      rw [buildIndex_chunks]
      exact h
    unfold search
    rw [scoredList_below (buildIndex chunks).chunks (buildIndex chunks).vectors
      (buildIndex chunks).norms (vectorizeTerms (buildIndex chunks).idf (tokenize query))
      (vnorm (vectorizeTerms (buildIndex chunks).idf (tokenize query))) minScore h2]
    simp [sortByScoreDesc, pySliceTo]

/-- Closed instance of claim C6's theorem: an empty index and a
punctuation-only query both produce the empty result list, the latter
with the no-token hypothesis discharged by evaluation. -/
theorem c6_witness :
    search (buildIndex []) "apple" 5 (5 / 100) = [] ∧
    search (buildIndex [⟨"1", "d", "apple"⟩]) "?!" 5 (5 / 100) = [] :=
  ⟨(c6_search_degrades [] "apple" 5 (5 / 100)).1,
   (c6_search_degrades [⟨"1", "d", "apple"⟩] "?!" 5 (5 / 100)).2.1 (by decide)⟩

/-! ### Negative top_k follows Python slice semantics (claim C10) -/

/-- Claim C10: a negative top_k does not raise and does not simply
return an empty list; by Python slice semantics l[:top_k] the call
returns the sorted threshold-filtered results with the last
abs(top_k) entries removed, so n qualifying results yield
n - abs(top_k) results (truncated at zero). -/
theorem c10_negative_topk (idx : InMemoryTfidfIndex) (query : String) (topK : ℤ)
    (minScore : ℝ) (hk : topK < 0)
    (h1 : idx.chunks.isEmpty = false)
    (h2 : (tokenize query).isEmpty = false)
    (h3 : (vectorizeTerms idx.idf (tokenize query)).isEmpty = false)
    (h4 : ¬ vnorm (vectorizeTerms idx.idf (tokenize query)) = 0) :
    search idx query topK minScore =
      (sortByScoreDesc (scoredList idx.chunks idx.vectors idx.norms
          (vectorizeTerms idx.idf (tokenize query))
          (vnorm (vectorizeTerms idx.idf (tokenize query))) minScore)).take
        ((scoredList idx.chunks idx.vectors idx.norms
          (vectorizeTerms idx.idf (tokenize query))
          (vnorm (vectorizeTerms idx.idf (tokenize query))) minScore).length - (-topK).toNat) ∧
    (search idx query topK minScore).length =
      (scoredList idx.chunks idx.vectors idx.norms
          (vectorizeTerms idx.idf (tokenize query))
          (vnorm (vectorizeTerms idx.idf (tokenize query))) minScore).length - (-topK).toNat := by
  have hlen := (sortByScoreDesc_perm (scoredList idx.chunks idx.vectors idx.norms
    (vectorizeTerms idx.idf (tokenize query))
    (vnorm (vectorizeTerms idx.idf (tokenize query))) minScore)).length_eq
  unfold search
  simp only [h1, h2, h3, Bool.false_eq_true, if_false, if_neg h4]
  unfold pySliceTo
  rw [if_neg (not_le.mpr hk)]
  constructor
  · congr 1
    omega
  · rw [List.length_take]
    omega

theorem c10_aux_qv_ne_nil :
    vectorizeTerms (buildIndex [⟨"1", "d", "apple"⟩]).idf (tokenize "apple") ≠ [] := by
  rw [show tokenize "apple" = ["apple"] from by decide]
  exact qv_apple_ne_nil

/-- Closed instance of claim C10's theorem at top_k = -1 over a
one-chunk corpus, with all reachability hypotheses discharged. -/
theorem c10_witness :
    (search (buildIndex [⟨"1", "d", "apple"⟩]) "apple" (-1) 0).length =
      (scoredList (buildIndex [⟨"1", "d", "apple"⟩]).chunks
        (buildIndex [⟨"1", "d", "apple"⟩]).vectors
        (buildIndex [⟨"1", "d", "apple"⟩]).norms
        (vectorizeTerms (buildIndex [⟨"1", "d", "apple"⟩]).idf (tokenize "apple"))
        (vnorm (vectorizeTerms (buildIndex [⟨"1", "d", "apple"⟩]).idf (tokenize "apple")))
        0).length - 1 := by
  have hpos : ∀ p ∈ vectorizeTerms (buildIndex [⟨"1", "d", "apple"⟩]).idf (tokenize "apple"),
      0 < p.2 := by
    rw [buildIndex_idf]
    exact vectorizeTerms_buildIdf_pos _ _
  have h4 := (vnorm_pos _ c10_aux_qv_ne_nil hpos).ne'
  exact (c10_negative_topk (buildIndex [⟨"1", "d", "apple"⟩]) "apple" (-1) 0 (by norm_num)
    (by rw [buildIndex_chunks]; rfl) (by decide)
    (List.isEmpty_eq_false.mpr c10_aux_qv_ne_nil) h4).2

/-! ### Context assembly (claim C2) -/

theorem estSum_cons (b : String) (l : List String) :
    estSum (b :: l) = ((b.length : ℤ) + 2) + estSum l := by
  simp [estSum]

theorem pyStrip_ne_empty (s : String) (c : Char) (hc : c ∈ s.data)
    (hw : c.isWhitespace = false) : pyStrip s ≠ "" := by
  unfold pyStrip
  intro h
  have hd : ((s.data.dropWhile Char.isWhitespace).reverse.dropWhile Char.isWhitespace).reverse
      = [] := congrArg String.data h
  rw [List.reverse_eq_nil_iff, List.dropWhile_eq_nil_iff] at hd
  have hc1 : c ∈ s.data.dropWhile Char.isWhitespace := by
    have hsplit := List.takeWhile_append_dropWhile (p := Char.isWhitespace) (l := s.data)
    rcases List.mem_append.mp (hsplit ▸ hc) with h1 | h1
    · exact absurd (List.mem_takeWhile_imp h1) (by simp [hw])
    · exact h1
  have := hd c (List.mem_reverse.mpr hc1)
  simp [hw] at this

theorem renderBlock_ne_empty (fmt : ℝ → String) (r : SearchResult) :
    renderBlock fmt r ≠ "" := by
  unfold renderBlock
  apply pyStrip_ne_empty _ '['
  · simp [String.data_append]
  · rfl

theorem pyJoin_ne_empty (sep : String) (b : String) (bs : List String) (hb : b ≠ "") :
    pyJoin sep (b :: bs) ≠ "" := by
  cases bs with
  | nil => simpa [pyJoin] using hb
  | cons b2 bs =>
    show b ++ sep ++ pyJoin sep (b2 :: bs) ≠ ""
    intro h
    have hlen : (b ++ sep ++ pyJoin sep (b2 :: bs)).length = 0 := by rw [h]; rfl
    rw [String.length_append, String.length_append] at hlen
    have hb1 : b.length ≠ 0 := fun h0 => hb (by
      have : b.data.length = 0 := h0
      have : b.data = [] := List.length_eq_zero.mp this
      exact String.ext (by simpa using this))
    omega

theorem buildContextGo_append (fmt : ℝ → String) (m : ℤ) (rs : List SearchResult) :
    ∀ (sections : List String) (total : ℤ), sections ≠ [] →
      buildContextGo fmt m rs sections total =
        sections ++ ctxTake m (rs.map (renderBlock fmt)) total := by
  induction rs with
  | nil => intro sections total h; simp [buildContextGo, ctxTake]
  | cons r rs ih =>
    intro sections total h
    rw [buildContextGo]
    have hsec : sections.isEmpty = false := List.isEmpty_eq_false.mpr h
    by_cases hc : m < total + (((renderBlock fmt r).length : ℤ) + 2)
    · rw [if_pos ⟨hsec, hc⟩, List.map_cons, ctxTake, if_pos hc]
      simp
    · rw [if_neg (by rintro ⟨h1, h2⟩; exact hc h2)]
      rw [ih (sections ++ [renderBlock fmt r]) _ (by simp)]
      rw [List.map_cons, ctxTake, if_neg hc]
      simp

theorem ctxTake_spec (m : ℤ) (bs : List String) : ∀ t : ℤ, ∃ k : ℕ,
    ctxTake m bs t = bs.take k ∧ k ≤ bs.length ∧
    (∀ j : ℕ, j < k → t + estSum (bs.take (j + 1)) ≤ m) ∧
    (k < bs.length → m < t + estSum (bs.take (k + 1))) := by
  induction bs with
  | nil =>
    intro t
    exact ⟨0, rfl, Nat.le_refl 0, fun j hj => absurd hj (Nat.not_lt_zero j),
      fun h => absurd h (lt_irrefl 0)⟩
  | cons b bs ih =>
    intro t
    by_cases hc : m < t + ((b.length : ℤ) + 2)
    · refine ⟨0, ?_, Nat.zero_le _, fun j hj => absurd hj (Nat.not_lt_zero j), fun _ => ?_⟩
      · rw [ctxTake, if_pos hc]
        rfl
      · rw [List.take_succ_cons, List.take_zero, estSum_cons]
        simpa [estSum] using hc
    · rcases ih (t + ((b.length : ℤ) + 2)) with ⟨k, hk1, hk2, hk3, hk4⟩
      refine ⟨k + 1, ?_, by simpa using Nat.succ_le_succ hk2, ?_, ?_⟩
      · rw [ctxTake, if_neg hc, hk1]
        rfl
      · intro j hj
        cases j with
        | zero =>
          rw [List.take_succ_cons, List.take_zero, estSum_cons]
          have := not_lt.mp hc
          simp [estSum]
          linarith
        | succ j =>
          have := hk3 j (by omega)
          rw [List.take_succ_cons, estSum_cons]
          linarith
      · intro hlt
        rw [List.length_cons] at hlt
        have := hk4 (by omega)
        rw [List.take_succ_cons, estSum_cons]
        linarith

/-- Claim C2: build_context on an empty result list yields the empty
string; on a nonempty list it always emits the first block (so the
output is nonempty), emits exactly a prefix of the rendered blocks, every
included non-first block kept the cumulative estimated total within
max_chars, and if assembly stopped before the end then the next block
would have pushed the cumulative total over max_chars (no later block is
added). -/
theorem c2_build_context (fmt : ℝ → String) (m : ℤ) :
    (buildContext fmt [] m = "") ∧
    (∀ (r : SearchResult) (rs : List SearchResult), ∃ k : ℕ,
      1 ≤ k ∧ k ≤ (r :: rs).length ∧
      buildContextGo fmt m (r :: rs) [] 0 = ((r :: rs).map (renderBlock fmt)).take k ∧
      (∀ j : ℕ, 1 ≤ j → j < k →
        estSum (((r :: rs).map (renderBlock fmt)).take (j + 1)) ≤ m) ∧
      (k < (r :: rs).length →
        m < estSum (((r :: rs).map (renderBlock fmt)).take (k + 1))) ∧
      buildContext fmt (r :: rs) m ≠ "") := by
  refine ⟨rfl, fun r rs => ?_⟩
  have h0 : buildContextGo fmt m (r :: rs) [] 0 =
      renderBlock fmt r ::
        ctxTake m (rs.map (renderBlock fmt)) (0 + (((renderBlock fmt r).length : ℤ) + 2)) := by
    rw [buildContextGo]
    rw [if_neg (by rintro ⟨h1, _⟩; simp at h1)]
    simp only [List.nil_append]
    rw [buildContextGo_append fmt m rs [renderBlock fmt r] _ (by simp)]
    rfl
  rcases ctxTake_spec m (rs.map (renderBlock fmt))
    (0 + (((renderBlock fmt r).length : ℤ) + 2)) with ⟨k, hk1, hk2, hk3, hk4⟩
  have hklen : k ≤ rs.length := by simpa using hk2
  refine ⟨k + 1, by omega, by rw [List.length_cons]; omega, ?_, ?_, ?_, ?_⟩
  · rw [h0, hk1, List.map_cons]
    rfl
  · intro j hj1 hj2
    obtain ⟨j, rfl⟩ : ∃ j2, j = j2 + 1 := ⟨j - 1, by omega⟩
    have := hk3 j (by omega)
    rw [List.map_cons, List.take_succ_cons, estSum_cons]
    linarith
  · intro hlt
    have hkr : k < rs.length := by simp at hlt; omega
    have := hk4 (by simpa using hkr)
    rw [List.map_cons, List.take_succ_cons, estSum_cons]
    linarith
  · unfold buildContext
    rw [h0]
    exact pyJoin_ne_empty _ _ _ (renderBlock_ne_empty fmt r)

/-- Closed instance of claim C2's theorem: the empty result list yields
the empty context string. -/
theorem c2_witness : buildContext (fun _ => "0.000") [] 8000 = "" :=
  (c2_build_context (fun _ => "0.000") 8000).1

/-! ### Tokenizer: lowercased maximal runs in order (claim C4) -/

theorem isStart_isCont (c : Char) (h : isStart c = true) : isCont c = true := by
  unfold isStart at h
  simp [isCont, h]

theorem dropWhile_head_false (p : Char → Bool) (l : List Char) (c : Char) (t : List Char)
    (h : l.dropWhile p = c :: t) : p c = false := by
  induction l with
  | nil => cases h
  | cons a l ih =>
    by_cases ha : p a
    · rw [List.dropWhile_cons_of_pos ha] at h
      exact ih h
    · rw [List.dropWhile_cons_of_neg ha] at h
      injection h with h1 h2
      subst h1
      simpa using ha

theorem dropWhile_length_le (p : Char → Bool) (l : List Char) :
    (l.dropWhile p).length ≤ l.length := by
  induction l with
  | nil => simp
  | cons c t ih =>
    by_cases h : p c
    · rw [List.dropWhile_cons_of_pos h]
      exact le_trans ih (by simp)
    · rw [List.dropWhile_cons_of_neg h]

theorem tokenizeGo_all_sep (l : List Char) (h : ∀ c ∈ l, isStart c = false) :
    tokenizeGo l [] = [] := by
  induction l with
  | nil => rfl
  | cons c rest ih =>
    simp only [tokenizeGo, List.isEmpty_nil, if_true, h c (List.mem_cons_self c rest),
      Bool.false_eq_true, if_false]
    exact ih fun d hd => h d (List.mem_cons_of_mem c hd)

theorem tokenizeGo_run (l : List Char) : ∀ acc : List Char, acc ≠ [] →
    tokenizeGo l acc =
      lowerRun (acc.reverse ++ l.takeWhile isCont) :: tokenizeGo (l.dropWhile isCont) [] := by
  induction l with
  | nil =>
    intro acc h
    simp [tokenizeGo, List.isEmpty_eq_false.mpr h]
  | cons c rest ih =>
    intro acc h
    have hemp : acc.isEmpty = false := List.isEmpty_eq_false.mpr h
    by_cases hcont : isCont c
    · simp only [tokenizeGo, hemp, Bool.false_eq_true, if_false, hcont, if_true]
      rw [ih (c :: acc) (by simp)]
      rw [List.takeWhile_cons_of_pos hcont, List.dropWhile_cons_of_pos hcont]
      simp
    · have hstart : isStart c = false := by
        cases hb : isStart c with
        | false => rfl
        | true => exact absurd (isStart_isCont c hb) (by simpa using hcont)
      simp only [tokenizeGo, hemp, Bool.false_eq_true, if_false, hcont, if_neg hcont]
      rw [List.takeWhile_cons_of_neg hcont, List.dropWhile_cons_of_neg hcont]
      simp only [List.append_nil]
      congr 1
      rw [show tokenizeGo (c :: rest) [] = tokenizeGo rest [] from by
        simp [tokenizeGo, hstart]]

/-- The decomposition of a character sequence certified by claim C4: a
leading separator stretch, then alternating maximal token runs and
separator stretches; tokenize returns exactly the lowercased runs in
order.  Each run starts with an isStart character and continues with
isCont characters; each following separator stretch starts with a
non-isCont character (so the run before it is maximal), contains no
isStart character (so no token is missed), and is nonempty except after
the final run. -/
def tokenDecomposition (l : List Char) : Prop :=
  ∃ (pre : List Char) (pieces : List (List Char × List Char)),
    l = pre ++ (pieces.map fun p => p.1 ++ p.2).flatten ∧
    (∀ c ∈ pre, isStart c = false) ∧
    (∀ p ∈ pieces, ∃ c cs, p.1 = c :: cs ∧ isStart c = true ∧ ∀ d ∈ cs, isCont d = true) ∧
    (∀ p ∈ pieces, ∀ c t, p.2 = c :: t → isCont c = false) ∧
    (∀ p ∈ pieces, ∀ c ∈ p.2, isStart c = false) ∧
    List.Chain' (fun p _ => p.2 ≠ []) pieces ∧
    tokenizeGo l [] = pieces.map fun p => lowerRun p.1

theorem tokenDecomposition_of_length :
    ∀ (n : ℕ) (l : List Char), l.length ≤ n → tokenDecomposition l := by
  intro n
  induction n with
  | zero =>
    intro l hl
    obtain rfl : l = [] := List.eq_nil_of_length_eq_zero (Nat.le_zero.mp hl)
    exact ⟨[], [], by simp, by simp, by simp, by simp, by simp, List.chain'_nil, rfl⟩
  | succ n ih =>
    intro l hl
    cases l with
    | nil => exact ⟨[], [], by simp, by simp, by simp, by simp, by simp, List.chain'_nil, rfl⟩
    | cons c rest =>
      rw [List.length_cons] at hl
      by_cases hs : isStart c = true
      · have h1 : tokenizeGo (c :: rest) [] = tokenizeGo rest [c] := by
          simp [tokenizeGo, hs]
        have h2 := tokenizeGo_run rest [c] (by simp)
        obtain ⟨pre2, pieces2, hsplit, hpre2, hgram, hsep1, hsep2, hchain, htok⟩ :=
          ih (rest.dropWhile isCont)
            (le_trans (dropWhile_length_le isCont rest) (by omega))
        refine ⟨[], (c :: rest.takeWhile isCont, pre2) :: pieces2, ?_, by simp, ?_, ?_, ?_, ?_, ?_⟩
        · conv_lhs => rw [show rest = rest.takeWhile isCont ++ rest.dropWhile isCont from
            (List.takeWhile_append_dropWhile isCont rest).symm]
          rw [hsplit]
          simp
        · intro p hp
          rcases List.mem_cons.mp hp with rfl | hp
          · exact ⟨c, rest.takeWhile isCont, rfl, hs, fun d hd => List.mem_takeWhile_imp hd⟩
          · exact hgram p hp
        · intro p hp c2 t2 he
          rcases List.mem_cons.mp hp with rfl | hp
          · have hr : rest.dropWhile isCont = c2 :: (t2 ++ (pieces2.map fun p => p.1 ++ p.2).flatten) := by
              rw [hsplit]
              simp only at he
              rw [he]
              rfl
            exact dropWhile_head_false isCont rest c2 _ hr
          · exact hsep1 p hp c2 t2 he
        · intro p hp c2 hc2
          rcases List.mem_cons.mp hp with rfl | hp
          · exact hpre2 c2 hc2
          · exact hsep2 p hp c2 hc2
        · rw [List.chain'_cons']
          refine ⟨?_, hchain⟩
          intro y hy
          cases pieces2 with
          | nil => cases hy
          | cons y0 t0 =>
            simp only [List.head?_cons, Option.mem_def, Option.some.injEq] at hy
            intro hpre0
            have hpre0b : pre2 = [] := hpre0
            obtain ⟨c0, cs0, hy1, hy2, _⟩ := hgram y0 (List.mem_cons_self y0 t0)
            have hr : rest.dropWhile isCont = c0 :: (cs0 ++ y0.2 ++ (t0.map fun p => p.1 ++ p.2).flatten) := by
              rw [hsplit, hpre0b]
              simp [hy1]
            have := dropWhile_head_false isCont rest c0 _ hr
            rw [isStart_isCont c0 hy2] at this
            cases this
        · rw [h1, h2]
          simp only [List.map_cons, List.reverse_cons, List.reverse_nil, List.nil_append,
            List.singleton_append, htok]
      · have hs2 : isStart c = false := by
          cases hb : isStart c with
          | false => rfl
          | true => exact absurd hb hs
        have h1 : tokenizeGo (c :: rest) [] = tokenizeGo rest [] := by
          simp [tokenizeGo, hs2]
        obtain ⟨pre2, pieces2, hsplit, hpre2, hgram, hsep1, hsep2, hchain, htok⟩ :=
          ih rest (by omega)
        refine ⟨c :: pre2, pieces2, by rw [List.cons_append, ← hsplit], ?_, hgram, hsep1, hsep2,
          hchain, h1 ▸ htok⟩
        intro d hd
        rcases List.mem_cons.mp hd with rfl | hd
        · exact hs2
        · exact hpre2 d hd

/-- Claim C4: for every input string, tokenize returns, in left-to-right
order and with duplicates retained, the lowercased maximal runs that
start with an alphanumeric character followed by alphanumeric
characters, apostrophes or hyphens; all other characters are separators
producing no term, and an input with no alphanumeric character (empty,
whitespace-only or punctuation-only) yields the empty sequence. -/
theorem c4_tokenize_maximal_runs (s : String) :
    tokenDecomposition s.data ∧
    ((∀ c ∈ s.data, isStart c = false) → tokenize s = []) := by
  refine ⟨tokenDecomposition_of_length s.data.length s.data le_rfl, fun h => ?_⟩
  exact tokenizeGo_all_sep s.data h

/-- Closed instance of claim C4's theorem: a punctuation-and-whitespace
string tokenizes to the empty sequence, with the no-token-start
hypothesis discharged by evaluation. -/
theorem c4_witness : tokenize "?! ,-" = [] :=
  (c4_tokenize_maximal_runs "?! ,-").2 (by decide)

/-! ### The three-chunk ranking example (claim C7) -/

/-- The corpus of claim C7. -/
def c7chunks : List DocumentChunk :=
  [⟨"1", "d", "apple banana fruit"⟩, ⟨"2", "d", "car engine vehicle"⟩,
   ⟨"3", "d", "apple pie apple dessert"⟩]

theorem c7_idf_apple : getWeight (buildIdf c7chunks) "apple" = some (idfVal 3 2) := by
  have h := getWeight_buildIdf c7chunks "apple" (by decide)
  rwa [show docFreq (tokenizedChunks c7chunks) "apple" = 2 from by decide,
    show c7chunks.length = 3 from rfl] at h

theorem c7_idf_banana : getWeight (buildIdf c7chunks) "banana" = some (idfVal 3 1) := by
  have h := getWeight_buildIdf c7chunks "banana" (by decide)
  rwa [show docFreq (tokenizedChunks c7chunks) "banana" = 1 from by decide,
    show c7chunks.length = 3 from rfl] at h

theorem c7_idf_fruit : getWeight (buildIdf c7chunks) "fruit" = some (idfVal 3 1) := by
  have h := getWeight_buildIdf c7chunks "fruit" (by decide)
  rwa [show docFreq (tokenizedChunks c7chunks) "fruit" = 1 from by decide,
    show c7chunks.length = 3 from rfl] at h

theorem c7_idf_car : getWeight (buildIdf c7chunks) "car" = some (idfVal 3 1) := by
  have h := getWeight_buildIdf c7chunks "car" (by decide)
  rwa [show docFreq (tokenizedChunks c7chunks) "car" = 1 from by decide,
    show c7chunks.length = 3 from rfl] at h

theorem c7_idf_engine : getWeight (buildIdf c7chunks) "engine" = some (idfVal 3 1) := by
  have h := getWeight_buildIdf c7chunks "engine" (by decide)
  rwa [show docFreq (tokenizedChunks c7chunks) "engine" = 1 from by decide,
    show c7chunks.length = 3 from rfl] at h

theorem c7_idf_vehicle : getWeight (buildIdf c7chunks) "vehicle" = some (idfVal 3 1) := by
  have h := getWeight_buildIdf c7chunks "vehicle" (by decide)
  rwa [show docFreq (tokenizedChunks c7chunks) "vehicle" = 1 from by decide,
    show c7chunks.length = 3 from rfl] at h

theorem c7_idf_pie : getWeight (buildIdf c7chunks) "pie" = some (idfVal 3 1) := by
  have h := getWeight_buildIdf c7chunks "pie" (by decide)
  rwa [show docFreq (tokenizedChunks c7chunks) "pie" = 1 from by decide,
    show c7chunks.length = 3 from rfl] at h

theorem c7_idf_dessert : getWeight (buildIdf c7chunks) "dessert" = some (idfVal 3 1) := by
  have h := getWeight_buildIdf c7chunks "dessert" (by decide)
  rwa [show docFreq (tokenizedChunks c7chunks) "dessert" = 1 from by decide,
    show c7chunks.length = 3 from rfl] at h

theorem c7_vec_a : vectorizeTerms (buildIdf c7chunks) ["apple", "banana", "fruit"] =
    [("apple", idfVal 3 2), ("banana", idfVal 3 1), ("fruit", idfVal 3 1)] := by
  unfold vectorizeTerms
  rw [show termCounts ["apple", "banana", "fruit"] =
    [("apple", 1), ("banana", 1), ("fruit", 1)] from by decide]
  rw [show maxFrequency ["apple", "banana", "fruit"] = 1 from by decide]
  simp only [List.isEmpty_cons, Bool.false_eq_true, if_false, List.filterMap_cons,
    List.filterMap_nil, c7_idf_apple, c7_idf_banana, c7_idf_fruit, Option.map_some']
  norm_num

theorem c7_vec_b : vectorizeTerms (buildIdf c7chunks) ["car", "engine", "vehicle"] =
    [("car", idfVal 3 1), ("engine", idfVal 3 1), ("vehicle", idfVal 3 1)] := by
  unfold vectorizeTerms
  rw [show termCounts ["car", "engine", "vehicle"] =
    [("car", 1), ("engine", 1), ("vehicle", 1)] from by decide]
  rw [show maxFrequency ["car", "engine", "vehicle"] = 1 from by decide]
  simp only [List.isEmpty_cons, Bool.false_eq_true, if_false, List.filterMap_cons,
    List.filterMap_nil, c7_idf_car, c7_idf_engine, c7_idf_vehicle, Option.map_some']
  norm_num

theorem c7_vec_c : vectorizeTerms (buildIdf c7chunks) ["apple", "pie", "apple", "dessert"] =
    [("apple", idfVal 3 2), ("pie", idfVal 3 1 / 2), ("dessert", idfVal 3 1 / 2)] := by
  unfold vectorizeTerms
  rw [show termCounts ["apple", "pie", "apple", "dessert"] =
    [("apple", 2), ("pie", 1), ("dessert", 1)] from by decide]
  rw [show maxFrequency ["apple", "pie", "apple", "dessert"] = 2 from by decide]
  simp only [List.isEmpty_cons, Bool.false_eq_true, if_false, List.filterMap_cons,
    List.filterMap_nil, c7_idf_apple, c7_idf_pie, c7_idf_dessert, Option.map_some']
  norm_num
  ring

theorem c7_vec_q : vectorizeTerms (buildIdf c7chunks) ["apple", "pie"] =
    [("apple", idfVal 3 2), ("pie", idfVal 3 1)] := by
  unfold vectorizeTerms
  rw [show termCounts ["apple", "pie"] = [("apple", 1), ("pie", 1)] from by decide]
  rw [show maxFrequency ["apple", "pie"] = 1 from by decide]
  simp only [List.isEmpty_cons, Bool.false_eq_true, if_false, List.filterMap_cons,
    List.filterMap_nil, c7_idf_apple, c7_idf_pie, Option.map_some']
  norm_num

noncomputable section

/-- The stored vector of the first C7 chunk. -/
def c7Va : List (String × ℝ) :=
  [("apple", idfVal 3 2), ("banana", idfVal 3 1), ("fruit", idfVal 3 1)]

/-- The stored vector of the second C7 chunk. -/
def c7Vb : List (String × ℝ) :=
  [("car", idfVal 3 1), ("engine", idfVal 3 1), ("vehicle", idfVal 3 1)]

/-- The stored vector of the third C7 chunk. -/
def c7Vc : List (String × ℝ) :=
  [("apple", idfVal 3 2), ("pie", idfVal 3 1 / 2), ("dessert", idfVal 3 1 / 2)]

/-- The query vector of the C7 query. -/
def c7Q : List (String × ℝ) := [("apple", idfVal 3 2), ("pie", idfVal 3 1)]

end

theorem c7_vectors : (buildIndex c7chunks).vectors = [c7Va, c7Vb, c7Vc] := by
  rw [buildIndex_vectors]
  show [vectorizeTerms (buildIdf c7chunks) (tokenize "apple banana fruit"),
        vectorizeTerms (buildIdf c7chunks) (tokenize "car engine vehicle"),
        vectorizeTerms (buildIdf c7chunks) (tokenize "apple pie apple dessert")] = _
  rw [show tokenize "apple banana fruit" = ["apple", "banana", "fruit"] from by decide,
    show tokenize "car engine vehicle" = ["car", "engine", "vehicle"] from by decide,
    show tokenize "apple pie apple dessert" = ["apple", "pie", "apple", "dessert"] from by decide,
    c7_vec_a, c7_vec_b, c7_vec_c]
  rfl

theorem c7_norms : (buildIndex c7chunks).norms = [vnorm c7Va, vnorm c7Vb, vnorm c7Vc] := by
  rw [buildIndex_norms, c7_vectors]
  rfl

theorem c7_dot_a : dot c7Q c7Va = idfVal 3 2 * idfVal 3 2 := by
  have hga : getD c7Va "apple" 0 = idfVal 3 2 :=
    getD_of_mem c7Va "apple" (idfVal 3 2) (by decide) (by simp [c7Va])
  have hgp : getD c7Va "pie" 0 = 0 := getD_not_mem c7Va "pie" (by decide)
  rw [dot, if_neg (by decide)]
  unfold dotRaw c7Q
  simp only [List.map_cons, List.map_nil, List.sum_cons, List.sum_nil]
  rw [hga, hgp]
  ring

theorem c7_dot_b : dot c7Q c7Vb = 0 := by
  have hga : getD c7Vb "apple" 0 = 0 := getD_not_mem c7Vb "apple" (by decide)
  have hgp : getD c7Vb "pie" 0 = 0 := getD_not_mem c7Vb "pie" (by decide)
  rw [dot, if_neg (by decide)]
  unfold dotRaw c7Q
  simp only [List.map_cons, List.map_nil, List.sum_cons, List.sum_nil]
  rw [hga, hgp]
  ring

theorem c7_dot_c : dot c7Q c7Vc =
    idfVal 3 2 * idfVal 3 2 + idfVal 3 1 * (idfVal 3 1 / 2) := by
  have hga : getD c7Vc "apple" 0 = idfVal 3 2 :=
    getD_of_mem c7Vc "apple" (idfVal 3 2) (by decide) (by simp [c7Vc])
  have hgp : getD c7Vc "pie" 0 = idfVal 3 1 / 2 :=
    getD_of_mem c7Vc "pie" (idfVal 3 1 / 2) (by decide) (by simp [c7Vc])
  rw [dot, if_neg (by decide)]
  unfold dotRaw c7Q
  simp only [List.map_cons, List.map_nil, List.sum_cons, List.sum_nil]
  rw [hga, hgp]
  ring

theorem scoredList_nil (vs : List (List (String × ℝ))) (ns : List ℝ)
    (qv : List (String × ℝ)) (qn ms : ℝ) : scoredList [] vs ns qv qn ms = [] := rfl

theorem scoredList_cons (c : DocumentChunk) (cs : List DocumentChunk)
    (v : List (String × ℝ)) (vs : List (List (String × ℝ))) (n : ℝ) (ns : List ℝ)
    (qv : List (String × ℝ)) (qn ms : ℝ) :
    scoredList (c :: cs) (v :: vs) (n :: ns) qv qn ms =
      (if n = 0 then none
       else if ms ≤ dot qv v / (qn * n) then some (⟨c, dot qv v / (qn * n)⟩ : SearchResult)
       else none).toList ++ scoredList cs vs ns qv qn ms := by
  unfold scoredList
  by_cases hn : n = 0
  · simp [hn]
  · by_cases hs : ms ≤ dot qv v / (qn * n)
    · simp [hn, hs]
    · simp [hn, hs]

/-- Claim C7: over the corpus with texts "apple banana fruit",
"car engine vehicle" and "apple pie apple dessert" (in that order),
search("apple pie", top_k = 3, min_score = 0) ranks the third chunk
first: the first returned result references the chunk whose text is
"apple pie apple dessert". -/
theorem c7_ranking :
    ((search (buildIndex c7chunks) "apple pie" 3 0).head?).map (fun r => r.chunk) =
      some ⟨"3", "d", "apple pie apple dessert"⟩ := by
  have hA : 0 < idfVal 3 2 := idfVal_pos 3 2 (by norm_num)
  have hB : 0 < idfVal 3 1 := idfVal_pos 3 1 (by norm_num)
  have hqpos : 0 < vnorm c7Q := by
    refine vnorm_pos _ (by simp [c7Q]) ?_
    intro p hp
    rcases (by simpa [c7Q] using hp : p = ("apple", idfVal 3 2) ∨ p = ("pie", idfVal 3 1)) with
      rfl | rfl
    · exact hA
    · exact hB
  have hnapos : 0 < vnorm c7Va := by
    refine vnorm_pos _ (by simp [c7Va]) ?_
    intro p hp
    rcases (by simpa [c7Va] using hp :
      p = ("apple", idfVal 3 2) ∨ p = ("banana", idfVal 3 1) ∨ p = ("fruit", idfVal 3 1)) with
      rfl | rfl | rfl
    · exact hA
    · exact hB
    · exact hB
  have hnbpos : 0 < vnorm c7Vb := by
    refine vnorm_pos _ (by simp [c7Vb]) ?_
    intro p hp
    rcases (by simpa [c7Vb] using hp :
      p = ("car", idfVal 3 1) ∨ p = ("engine", idfVal 3 1) ∨ p = ("vehicle", idfVal 3 1)) with
      rfl | rfl | rfl
    · exact hB
    · exact hB
    · exact hB
  have hncpos : 0 < vnorm c7Vc := by
    refine vnorm_pos _ (by simp [c7Vc]) ?_
    intro p hp
    rcases (by simpa [c7Vc] using hp :
      p = ("apple", idfVal 3 2) ∨ p = ("pie", idfVal 3 1 / 2) ∨
        p = ("dessert", idfVal 3 1 / 2)) with rfl | rfl | rfl
    · exact hA
    · positivity
    · positivity
  have hs1nonneg : 0 ≤ idfVal 3 2 * idfVal 3 2 / (vnorm c7Q * vnorm c7Va) :=
    div_nonneg (by positivity) (mul_nonneg (vnorm_nonneg _) (vnorm_nonneg _))
  have hs2nonneg : (0 : ℝ) ≤ 0 / (vnorm c7Q * vnorm c7Vb) :=
    div_nonneg le_rfl (mul_nonneg (vnorm_nonneg _) (vnorm_nonneg _))
  have hs3pos : 0 < (idfVal 3 2 * idfVal 3 2 + idfVal 3 1 * (idfVal 3 1 / 2)) /
      (vnorm c7Q * vnorm c7Vc) :=
    div_pos (by nlinarith [mul_pos hA hA, mul_pos hB hB]) (mul_pos hqpos hncpos)
  have hltnorm : vnorm c7Vc < vnorm c7Va := by
    unfold vnorm c7Va c7Vc
    simp only [List.map_cons, List.map_nil, List.sum_cons, List.sum_nil]
    apply Real.sqrt_lt_sqrt (by positivity)
    nlinarith [mul_pos hB hB]
  have hs13 : idfVal 3 2 * idfVal 3 2 / (vnorm c7Q * vnorm c7Va) <
      (idfVal 3 2 * idfVal 3 2 + idfVal 3 1 * (idfVal 3 1 / 2)) /
        (vnorm c7Q * vnorm c7Vc) := by
    rw [div_lt_div_iff₀ (mul_pos hqpos hnapos) (mul_pos hqpos hncpos)]
    nlinarith [mul_lt_mul_of_pos_left hltnorm
        (by positivity : (0 : ℝ) < idfVal 3 2 * idfVal 3 2 * vnorm c7Q),
      mul_pos (mul_pos hqpos hnapos) (mul_pos hB hB), mul_pos hqpos hnapos]
  -- unfold search and discharge the guards
  unfold search
  rw [buildIndex_chunks]
  rw [if_neg (by decide : ¬ (c7chunks.isEmpty = true))]
  rw [show tokenize "apple pie" = ["apple", "pie"] from by decide]
  rw [if_neg (by decide : ¬ ((["apple", "pie"] : List String).isEmpty = true))]
  rw [buildIndex_idf, c7_vec_q,
    show [("apple", idfVal 3 2), ("pie", idfVal 3 1)] = c7Q from rfl]
  rw [if_neg (by simp [c7Q] : ¬ ((c7Q).isEmpty = true))]
  rw [if_neg hqpos.ne']
  rw [c7_vectors, c7_norms]
  -- evaluate the scoring loop
  rw [show c7chunks = [⟨"1", "d", "apple banana fruit"⟩, ⟨"2", "d", "car engine vehicle"⟩,
    ⟨"3", "d", "apple pie apple dessert"⟩] from rfl]
  rw [scoredList_cons, scoredList_cons, scoredList_cons, scoredList_nil]
  have hf1 : (if vnorm c7Va = 0 then none
      else if (0 : ℝ) ≤ dot c7Q c7Va / (vnorm c7Q * vnorm c7Va) then
        some (⟨⟨"1", "d", "apple banana fruit"⟩, dot c7Q c7Va / (vnorm c7Q * vnorm c7Va)⟩ :
          SearchResult)
      else none) =
      some ⟨⟨"1", "d", "apple banana fruit"⟩,
        idfVal 3 2 * idfVal 3 2 / (vnorm c7Q * vnorm c7Va)⟩ := by
    rw [c7_dot_a, if_neg hnapos.ne', if_pos hs1nonneg]
  have hf2 : (if vnorm c7Vb = 0 then none
      else if (0 : ℝ) ≤ dot c7Q c7Vb / (vnorm c7Q * vnorm c7Vb) then
        some (⟨⟨"2", "d", "car engine vehicle"⟩, dot c7Q c7Vb / (vnorm c7Q * vnorm c7Vb)⟩ :
          SearchResult)
      else none) =
      some ⟨⟨"2", "d", "car engine vehicle"⟩, 0 / (vnorm c7Q * vnorm c7Vb)⟩ := by
    rw [c7_dot_b, if_neg hnbpos.ne', if_pos hs2nonneg]
  have hf3 : (if vnorm c7Vc = 0 then none
      else if (0 : ℝ) ≤ dot c7Q c7Vc / (vnorm c7Q * vnorm c7Vc) then
        some (⟨⟨"3", "d", "apple pie apple dessert"⟩, dot c7Q c7Vc / (vnorm c7Q * vnorm c7Vc)⟩ :
          SearchResult)
      else none) =
      some ⟨⟨"3", "d", "apple pie apple dessert"⟩,
        (idfVal 3 2 * idfVal 3 2 + idfVal 3 1 * (idfVal 3 1 / 2)) /
          (vnorm c7Q * vnorm c7Vc)⟩ := by
    rw [c7_dot_c, if_neg hncpos.ne', if_pos hs3pos.le]
  rw [hf1, hf2, hf3]
  simp only [Option.toList_some, List.singleton_append, List.nil_append, List.append_nil]
  -- evaluate the sort: scores are s1 >= 0, s2 = 0, s3 > s1
  rw [show (0 : ℝ) / (vnorm c7Q * vnorm c7Vb) = 0 from zero_div _]
  unfold sortByScoreDesc
  simp only [List.insertionSort, List.orderedInsert]
  rw [if_neg (not_le.mpr hs3pos)]
  simp only [List.orderedInsert]
  rw [if_neg (not_le.mpr hs13)]
  rw [if_pos hs1nonneg]
  -- slice and project
  unfold pySliceTo
  rw [if_pos (by norm_num : (0 : ℤ) ≤ 3)]
  rfl

end Retrieval
